import Mathlib

/-!
Verification of the airdrop eligibility scout
(`src/airdrop_eligibility_scout.py`) against its specification.

The development shallowly embeds the script's computational core:

* `Tx` models a raw transaction record.  Python dictionary fields that may be
  absent are `Option`s; the `timeStamp` field is modelled as the outcome of
  Python's `int(...)` conversion (`some n` when the conversion succeeds with
  value `n`, `none` when the field is missing or `int(...)` raises), since the
  script only ever consumes the timestamp through `int(t["timeStamp"])`.
* `analyze_interactions` mirrors the Python function of the same name.  The
  expression `int((t1 - t0) / 86400)` performs *float* (double precision) true
  division in Python; it is modelled exactly by `pyIntDiv86400`: the quotient
  is rounded to the nearest double (ties to even) and then truncated toward
  zero, and a quotient whose rounded magnitude reaches `2^1024` raises
  `OverflowError` (modelled as `none`), exactly as CPython's
  `long_true_divide` does.  The arguments of the division are nonzero
  multiples of `1/86400`, so the subnormal range of doubles is never reached
  and the model only needs the normal range.
* Strings are lowered character by character; Python's `str.lower` agrees with
  `lowerChar` on the ASCII range, which covers every string the script
  validates or produces (hex addresses and `0x`-prefixed payload markers).
-/

namespace Scout

set_option maxRecDepth 80000

/-- A raw transaction record as consumed by `analyze_interactions`:
`to` and `input` are the string fields (absent dictionary keys are `none`),
`timeStamp` is the result of `int(t["timeStamp"])` when that conversion
succeeds and `none` when the key is missing or the conversion raises. -/
structure Tx where
  «to» : Option String
  input : Option String
  timeStamp : Option ℤ
deriving DecidableEq

/-- ASCII lowering of one character: Python's `str.lower` restricted to the
code points the script manipulates (`A`-`Z` map to `a`-`z`). -/
def lowerChar (c : Char) : Char :=
  if 65 ≤ c.toNat ∧ c.toNat ≤ 90 then Char.ofNat (c.toNat + 32) else c

/-- Python's `s.lower()` (ASCII range). -/
def lowerStr (s : String) : String := ⟨s.data.map lowerChar⟩

/-- Python's `s.startswith("0x")`. -/
def starts0x (s : String) : Bool :=
  match s.data with
  | '0' :: 'x' :: _ => true
  | _ => false

/-- The body of the contract-interaction heuristic of `analyze_interactions`:
`to = (t.get("to") or "").lower()`, kept when
`to.startswith("0x") and len(t.get("input") or "") > 2`. -/
def contractOf (t : Tx) : Option String :=
  let dest := lowerStr (t.«to».getD "")
  if starts0x dest = true ∧ 2 < (t.input.getD "").length then some dest else none

/-- Floor of the base-2 logarithm, by structural recursion on a fuel
argument (so that concrete instances reduce inside the kernel). -/
def log2fuel : ℕ → ℕ → ℕ
  | 0, _ => 0
  | fuel + 1, n => if n ≤ 1 then 0 else log2fuel fuel (n / 2) + 1

/-- Computes `log2floor n = ⌊log₂ n⌋` for `1 ≤ n`. -/
def log2floor (n : ℕ) : ℕ := log2fuel n n

/-- Computes `2 ^ e` in `ℚ` for an integer exponent `e`, through the
machine-accelerated `Nat.pow` so that concrete instances reduce. -/
def pow2 (e : ℤ) : ℚ :=
  if 0 ≤ e then ((2 ^ e.toNat : ℕ) : ℚ) else mkRat 1 (2 ^ (-e).toNat)

/-- Computes `q * 2 ^ e` in `ℚ` on the numerator/denominator
representation so that concrete instances reduce. -/
def mulPow2 (q : ℚ) (e : ℤ) : ℚ :=
  if 0 ≤ e then mkRat (q.num * (2 ^ e.toNat : ℕ)) q.den
  else mkRat q.num (q.den * 2 ^ (-e).toNat)

/-- Computes `⌊log₂ q⌋` for a positive rational `q`, as an integer. -/
def ratLog2 (q : ℚ) : ℤ :=
  let k : ℤ := (log2floor q.num.toNat : ℤ) - (log2floor q.den : ℤ)
  if pow2 k ≤ q then k else k - 1

/-- Round a rational to the nearest integer, ties to even: `s = n + rem/den`
with `n = ⌊s⌋`, and the fractional part `rem/den` is compared with `1/2`. -/
def roundNE (s : ℚ) : ℤ :=
  let n : ℤ := s.floor
  let rem : ℤ := s.num - n * (s.den : ℤ)
  if 2 * rem < (s.den : ℤ) then n
  else if (s.den : ℤ) < 2 * rem then n + 1
  else if n % 2 = 0 then n else n + 1

/-- Round a positive rational to the 53-bit floating-point grid
(round to nearest, ties to even, unbounded exponent): the value is scaled
into `[2^52, 2^53)`, rounded to the nearest integer and scaled back. -/
def roundMantissa (q : ℚ) : ℚ :=
  let f := ratLog2 q
  mulPow2 ((roundNE (mulPow2 q (52 - f)) : ℤ) : ℚ) (f - 52)

/-- Round a positive rational to a finite double; `none` models the overflow
to infinity (IEEE-754: a rounded magnitude reaching `2^1024` overflows). -/
def roundFin (q : ℚ) : Option ℚ :=
  let r := roundMantissa q
  if r < pow2 1024 then some r else none

/-- The exact rational value of the double nearest to `q`
(normal range; ties to even), `none` on overflow to `±inf`. -/
def pyFloatOfRat (q : ℚ) : Option ℚ :=
  if q = 0 then some 0
  else if 0 < q then roundFin q
  else (roundFin (-q)).map (fun r => -r)

/-- Python's `int(...)` on a finite float value: truncation toward zero. -/
def truncQ (r : ℚ) : ℤ := if 0 ≤ r then r.floor else -(-r).floor

/-- Python's `int(d / 86400)` for an integer `d`: correctly rounded double
division followed by truncation toward zero; `none` models the
`OverflowError` raised when the quotient leaves the double range. -/
def pyIntDiv86400 (d : ℤ) : Option ℤ :=
  (pyFloatOfRat (mkRat d 86400)).map truncQ

/-- The body of the `try:` block of `analyze_interactions`:
`t0 = int(txs[0]["timeStamp"]); t1 = int(txs[-1]["timeStamp"]);
days = max(1, int((t1 - t0) / 86400))`.  `none` is a raised exception
(missing key, failed `int(...)` conversion, or overflow in the division). -/
def daysTry (txs : List Tx) : Option ℤ :=
  match txs.head?.bind Tx.timeStamp, txs.getLast?.bind Tx.timeStamp with
  | some t0, some t1 => (pyIntDiv86400 (t1 - t0)).map (fun q => max 1 q)
  | _, _ => none

/-- The function `analyze_interactions(txs)`, returning `(tx_count, unique_contracts,
active_days)`.  The `except:` handler is `Option.getD 0`: any exception in
the timestamp block degrades `days` to `0`. -/
def analyze_interactions (txs : List Tx) : ℕ × ℕ × ℤ :=
  let tx_count := txs.length
  let contracts : Finset String := (txs.filterMap contractOf).toFinset
  let days : ℤ := if tx_count ≠ 0 then (daysTry txs).getD 0 else 0
  (tx_count, contracts.card, days)

/-! ### Bridges between the executable definitions and Mathlib's `ℚ` API -/

theorem ratFloor_eq (q : ℚ) : q.floor = ⌊q⌋ := by
  rw [Rat.floor_def', Rat.floor_def]

theorem mkRat_natCast_eq_div (n : ℤ) (d : ℕ) : mkRat n d = (n : ℚ) / (d : ℚ) := by
  rw [Rat.mkRat_eq_divInt, Rat.divInt_eq_div]
  norm_cast

theorem pow2_eq (e : ℤ) : pow2 e = (2 : ℚ) ^ e := by
  unfold pow2
  split
  · next h =>
    push_cast
    rw [← zpow_natCast, Int.toNat_of_nonneg h]
  · next h =>
    rw [mkRat_natCast_eq_div]
    push_cast
    rw [← zpow_natCast, Int.toNat_of_nonneg (by omega : (0 : ℤ) ≤ -e), one_div, ← zpow_neg,
      neg_neg]

theorem mulPow2_eq (q : ℚ) (e : ℤ) : mulPow2 q e = q * (2 : ℚ) ^ e := by
  unfold mulPow2
  split
  · next h =>
    rw [mkRat_natCast_eq_div]
    push_cast
    rw [← zpow_natCast, Int.toNat_of_nonneg h, mul_div_right_comm, Rat.num_div_den]
  · next h =>
    rw [mkRat_natCast_eq_div]
    push_cast
    rw [← zpow_natCast, Int.toNat_of_nonneg (by omega : (0 : ℤ) ≤ -e), ← div_div,
      Rat.num_div_den, div_eq_mul_inv, ← zpow_neg, neg_neg]

/-! ### The base-2 logarithm helper -/

theorem log2fuel_spec : ∀ (fuel n : ℕ), 1 ≤ n → n ≤ fuel →
    2 ^ log2fuel fuel n ≤ n ∧ n < 2 ^ (log2fuel fuel n + 1) := by
  intro fuel
  induction fuel with
  | zero => intro n h1 h2; omega
  | succ fuel ih =>
    intro n h1 h2
    rw [log2fuel]
    split
    · next h => constructor <;> simp <;> omega
    · next h =>
      have hrec := ih (n / 2) (by omega) (by omega)
      rcases hrec with ⟨hlo, hhi⟩
      constructor
      · calc 2 ^ (log2fuel fuel (n / 2) + 1) = 2 * 2 ^ log2fuel fuel (n / 2) := by ring
        _ ≤ 2 * (n / 2) := by omega
        _ ≤ n := by omega
      · calc n < 2 * (n / 2) + 2 := by omega
        _ ≤ 2 * 2 ^ (log2fuel fuel (n / 2) + 1) := by omega
        _ = 2 ^ (log2fuel fuel (n / 2) + 1 + 1) := by ring

theorem log2floor_spec (n : ℕ) (h : 1 ≤ n) :
    2 ^ log2floor n ≤ n ∧ n < 2 ^ (log2floor n + 1) :=
  log2fuel_spec n n h le_rfl

/-! ### `ratLog2` computes the floor of the base-2 logarithm -/

theorem ratLog2_spec (q : ℚ) (hq : 0 < q) :
    (2 : ℚ) ^ ratLog2 q ≤ q ∧ q < 2 ^ (ratLog2 q + 1) := by
  have hnum : 0 < q.num := Rat.num_pos.mpr hq
  have hden : 0 < q.den := q.den_pos
  set a : ℕ := q.num.toNat with ha
  have hnum' : (q.num : ℚ) = (a : ℚ) := by
    rw [ha]; norm_cast; omega
  have ha1 : 1 ≤ a := by omega
  have hq_eq : q = (a : ℚ) / (q.den : ℚ) := by
    rw [← hnum', Rat.num_div_den]
  obtain ⟨haLo, haHi⟩ := log2floor_spec a ha1
  obtain ⟨hbLo, hbHi⟩ := log2floor_spec q.den hden
  have hdenQ : (0 : ℚ) < (q.den : ℚ) := by positivity
  set La := log2floor a
  set Lb := log2floor q.den
  -- upper bound: q < 2 ^ (La - Lb + 1)
  have hUp : q < (2 : ℚ) ^ ((La : ℤ) - (Lb : ℤ) + 1) := by
    rw [hq_eq, div_lt_iff hdenQ]
    calc (a : ℚ) < ((2 : ℚ)) ^ (La + 1) := by exact_mod_cast haHi
    _ = 2 ^ ((La : ℤ) + 1) := by rw [← zpow_natCast]; push_cast; ring_nf
    _ ≤ 2 ^ ((La : ℤ) - Lb + 1) * (2 : ℚ) ^ (Lb : ℤ) := by
        rw [← zpow_add₀ (by norm_num : (2:ℚ) ≠ 0)]
        apply zpow_le_zpow_right₀ (by norm_num) (by omega)
    _ ≤ 2 ^ ((La : ℤ) - Lb + 1) * (q.den : ℚ) := by
        apply mul_le_mul_of_nonneg_left _ (by positivity)
        calc ((2:ℚ)) ^ (Lb : ℤ) = ((2 ^ Lb : ℕ) : ℚ) := by push_cast [← zpow_natCast]; ring_nf
        _ ≤ (q.den : ℚ) := by exact_mod_cast hbLo
  -- lower bound: 2 ^ (La - Lb - 1) < q
  have hLo : (2 : ℚ) ^ ((La : ℤ) - (Lb : ℤ) - 1) < q := by
    rw [hq_eq, lt_div_iff hdenQ]
    calc (2:ℚ) ^ ((La : ℤ) - Lb - 1) * (q.den : ℚ)
        < 2 ^ ((La : ℤ) - Lb - 1) * (2 : ℚ) ^ ((Lb : ℤ) + 1) := by
          apply mul_lt_mul_of_pos_left _ (by positivity)
          calc (q.den : ℚ) < ((2 ^ (Lb + 1) : ℕ) : ℚ) := by exact_mod_cast hbHi
          _ = (2:ℚ) ^ ((Lb : ℤ) + 1) := by push_cast [← zpow_natCast]; ring_nf
    _ = 2 ^ ((La : ℤ) - Lb + Lb) := by
          rw [← zpow_add₀ (by norm_num : (2:ℚ) ≠ 0)]; ring_nf
    _ ≤ (a : ℚ) := by
          calc (2:ℚ) ^ ((La : ℤ) - Lb + Lb) = 2 ^ ((La : ℤ)) := by ring_nf
          _ = ((2 ^ La : ℕ) : ℚ) := by push_cast [← zpow_natCast]; ring_nf
          _ ≤ (a : ℚ) := by exact_mod_cast haLo
  have hdef : ratLog2 q =
      if pow2 ((La : ℤ) - Lb) ≤ q then (La : ℤ) - Lb else (La : ℤ) - Lb - 1 := rfl
  rw [hdef, pow2_eq]
  split
  · next hcase => exact ⟨hcase, hUp⟩
  · next hcase =>
    push_neg at hcase
    refine ⟨hLo.le, ?_⟩
    have hexp : (La : ℤ) - Lb - 1 + 1 = (La : ℤ) - Lb := by ring
    rw [hexp]
    exact hcase

/-! ### `roundNE` rounds to the nearest integer (ties to even) -/

theorem roundNE_bounds (s : ℚ) :
    s - 1 / 2 ≤ (roundNE s : ℚ) ∧ (roundNE s : ℚ) ≤ s + 1 / 2 := by
  have hdenZ : (0 : ℤ) < (s.den : ℤ) := by exact_mod_cast s.den_pos
  have hdenQ : (0 : ℚ) < (s.den : ℚ) := by exact_mod_cast s.den_pos
  set n := s.floor with hn
  set rem : ℤ := s.num - n * (s.den : ℤ) with hrem_def
  have hfl : n = ⌊s⌋ := ratFloor_eq s
  have hle : (n : ℚ) ≤ s := by rw [hfl]; exact Int.floor_le s
  have hlt : s < (n : ℚ) + 1 := by rw [hfl]; exact Int.lt_floor_add_one s
  have hsnum : s * (s.den : ℚ) = (s.num : ℚ) := by
    nth_rewrite 1 [← Rat.num_div_den s]
    rw [div_mul_cancel₀ _ (ne_of_gt hdenQ)]
  have hfrac : s - (n : ℚ) = (rem : ℚ) / (s.den : ℚ) := by
    rw [eq_div_iff (ne_of_gt hdenQ), sub_mul, hsnum, hrem_def]
    push_cast
    ring
  have hdef : roundNE s =
      if 2 * rem < (s.den : ℤ) then n
      else if (s.den : ℤ) < 2 * rem then n + 1
      else if n % 2 = 0 then n else n + 1 := rfl
  rw [hdef]
  split
  · next h =>
    have hHalf : (rem : ℚ) / (s.den : ℚ) ≤ 1 / 2 := by
      rw [div_le_div_iff hdenQ (by norm_num)]
      have : (2 * rem : ℚ) ≤ (s.den : ℚ) := by exact_mod_cast h.le
      linarith
    constructor <;> linarith [hfrac]
  · next h =>
    push_neg at h
    have hHalf : 1 / 2 ≤ (rem : ℚ) / (s.den : ℚ) := by
      rw [div_le_div_iff (by norm_num) hdenQ]
      have : (s.den : ℚ) ≤ (2 * rem : ℚ) := by exact_mod_cast h
      linarith
    split
    · next h2 =>
      have hHalf2 : (rem : ℚ) / (s.den : ℚ) < 1 := by
        rw [div_lt_one hdenQ]
        have hremlt : rem < (s.den : ℤ) := by
          have h0 : 0 ≤ rem ∧ rem < (s.den : ℤ) := by
            rw [hrem_def, hn, Rat.floor_def']
            constructor
            · have := Int.emod_nonneg s.num (ne_of_gt hdenZ)
              rw [Int.emod_def] at this
              linarith
            · have := Int.emod_lt_of_pos s.num hdenZ
              rw [Int.emod_def] at this
              linarith
          exact h0.2
        exact_mod_cast hremlt
      push_cast
      constructor <;> linarith [hfrac]
    · next h2 =>
      push_neg at h2
      have heq : (rem : ℚ) / (s.den : ℚ) = 1 / 2 := by
        have hint : (s.den : ℤ) = 2 * rem := le_antisymm h h2
        have hq2 : ((s.den : ℚ)) = 2 * (rem : ℚ) := by exact_mod_cast hint
        rw [div_eq_div_iff (ne_of_gt hdenQ) (by norm_num : (2 : ℚ) ≠ 0)]
        linarith
      split <;> (push_cast; constructor <;> linarith [hfrac])

theorem roundNE_intCast (m : ℤ) : roundNE ((m : ℚ)) = m := by
  have hfl : ((m : ℚ)).floor = m := by
    rw [ratFloor_eq, Int.floor_intCast]
  have hdef : roundNE ((m : ℚ)) =
      if 2 * ((m : ℚ).num - (m : ℚ).floor * ((m : ℚ).den : ℤ)) < ((m : ℚ).den : ℤ)
      then (m : ℚ).floor
      else if ((m : ℚ).den : ℤ) < 2 * ((m : ℚ).num - (m : ℚ).floor * ((m : ℚ).den : ℤ))
      then (m : ℚ).floor + 1
      else if (m : ℚ).floor % 2 = 0 then (m : ℚ).floor else (m : ℚ).floor + 1 := rfl
  rw [hdef, hfl, Rat.num_intCast, Rat.den_intCast]
  norm_num

/-! ### `roundMantissa` is correct rounding to 53 significant bits -/

theorem roundMantissa_eq (q : ℚ) :
    roundMantissa q =
      (roundNE (q * (2 : ℚ) ^ (52 - ratLog2 q)) : ℚ) * (2 : ℚ) ^ (ratLog2 q - 52) := by
  have hdef : roundMantissa q =
      mulPow2 ((roundNE (mulPow2 q (52 - ratLog2 q)) : ℤ) : ℚ) (ratLog2 q - 52) := rfl
  rw [hdef, mulPow2_eq, mulPow2_eq]

theorem roundMantissa_bounds (q : ℚ) :
    q - (2 : ℚ) ^ (ratLog2 q - 53) ≤ roundMantissa q ∧
      roundMantissa q ≤ q + (2 : ℚ) ^ (ratLog2 q - 53) := by
  set f := ratLog2 q with hf
  set s := q * (2 : ℚ) ^ (52 - f) with hs
  obtain ⟨h1, h2⟩ := roundNE_bounds s
  have hpos : (0 : ℚ) < (2 : ℚ) ^ (f - 52) := by positivity
  have hq_s : s * (2 : ℚ) ^ (f - 52) = q := by
    rw [hs, mul_assoc, ← zpow_add₀ (by norm_num : (2 : ℚ) ≠ 0)]
    have : 52 - f + (f - 52) = 0 := by ring
    rw [this, zpow_zero, mul_one]
  have hhalf : (1 / 2 : ℚ) * (2 : ℚ) ^ (f - 52) = 2 ^ (f - 53) := by
    have h12 : (1 / 2 : ℚ) = (2 : ℚ) ^ (-1 : ℤ) := by
      rw [zpow_neg, zpow_one, one_div]
    rw [h12, ← zpow_add₀ (by norm_num : (2 : ℚ) ≠ 0)]
    ring_nf
  rw [roundMantissa_eq, ← hf, ← hs]
  constructor
  · have := mul_le_mul_of_nonneg_right h1 hpos.le
    rw [sub_mul, hq_s, hhalf] at this
    linarith
  · have := mul_le_mul_of_nonneg_right h2 hpos.le
    rw [add_mul, hq_s, hhalf] at this
    linarith

theorem roundMantissa_pos (q : ℚ) (hq : 0 < q) : 0 < roundMantissa q := by
  obtain ⟨hlo, _⟩ := roundMantissa_bounds q
  obtain ⟨hpow, _⟩ := ratLog2_spec q hq
  have : (2 : ℚ) ^ (ratLog2 q - 53) < 2 ^ ratLog2 q :=
    zpow_lt_zpow_right₀ (by norm_num) (by omega)
  linarith

theorem roundMantissa_exact (q : ℚ) (m : ℤ)
    (hm : q * (2 : ℚ) ^ (52 - ratLog2 q) = (m : ℚ)) : roundMantissa q = q := by
  rw [roundMantissa_eq, hm, roundNE_intCast, ← hm, mul_assoc,
    ← zpow_add₀ (by norm_num : (2 : ℚ) ≠ 0)]
  have : 52 - ratLog2 q + (ratLog2 q - 52) = 0 := by ring
  rw [this, zpow_zero, mul_one]

/-! ### Characterizations of the float-division model -/

theorem roundFin_eq (q : ℚ) :
    roundFin q =
      if roundMantissa q < (2 : ℚ) ^ (1024 : ℤ) then some (roundMantissa q) else none := by
  have hdef : roundFin q =
      if roundMantissa q < pow2 1024 then some (roundMantissa q) else none := rfl
  rw [hdef, pow2_eq]

theorem pyFloatOfRat_pos (q : ℚ) (hq : 0 < q) : pyFloatOfRat q = roundFin q := by
  unfold pyFloatOfRat
  rw [if_neg (ne_of_gt hq), if_pos hq]

theorem pyFloatOfRat_neg (q : ℚ) (hq : q < 0) :
    pyFloatOfRat q = (roundFin (-q)).map (fun r => -r) := by
  unfold pyFloatOfRat
  rw [if_neg (ne_of_lt hq), if_neg (not_lt_of_lt hq)]

theorem truncQ_eq_floor (r : ℚ) (h : 0 ≤ r) : truncQ r = ⌊r⌋ := by
  unfold truncQ
  rw [if_pos h, ratFloor_eq]

theorem truncQ_nonpos (r : ℚ) (h : r < 0) : truncQ r ≤ 0 := by
  unfold truncQ
  rw [if_neg (not_le_of_lt h), ratFloor_eq]
  have : (0 : ℤ) ≤ ⌊-r⌋ := Int.floor_nonneg.mpr (by linarith)
  omega

theorem pyIntDiv86400_eq (d : ℤ) :
    pyIntDiv86400 d = (pyFloatOfRat ((d : ℚ) / 86400)).map truncQ := by
  unfold pyIntDiv86400
  rw [mkRat_natCast_eq_div]
  norm_num

/-- In the range of all realistic timestamp differences (below `86400 * 2^37`
seconds), the double division of the script agrees with exact floor
division: the rounding error `2^(f-53)` is smaller than the distance
`1/86400` from the exact quotient to the nearest integers. -/
theorem pyIntDiv86400_agrees (d : ℤ) (h0 : 0 ≤ d) (hb : d < 86400 * 2 ^ 37) :
    pyIntDiv86400 d = some ⌊(d : ℚ) / 86400⌋ := by
  rcases eq_or_lt_of_le h0 with rfl | hd
  · have hz : pyIntDiv86400 0 = some 0 := by decide
    rw [hz]
    norm_num
  · set q : ℚ := (d : ℚ) / 86400 with hq_def
    have hq : 0 < q := by
      rw [hq_def]
      have : (0 : ℚ) < (d : ℚ) := by exact_mod_cast hd
      positivity
    rw [pyIntDiv86400_eq, pyFloatOfRat_pos _ hq, roundFin_eq]
    set f := ratLog2 q with hf
    set rm := roundMantissa q with hrm
    obtain ⟨hfLo, hfHi⟩ := ratLog2_spec q hq
    obtain ⟨hmLo, hmHi⟩ := roundMantissa_bounds q
    rw [← hf] at hfLo hfHi hmLo hmHi
    rw [← hrm] at hmLo hmHi
    -- q < 2 ^ 37, hence f ≤ 36
    have hq37 : q < (2 : ℚ) ^ (37 : ℤ) := by
      rw [hq_def, div_lt_iff₀ (by norm_num : (0 : ℚ) < 86400)]
      have h2 : ((2 : ℚ)) ^ (37 : ℤ) = ((2 ^ 37 : ℤ) : ℚ) := by
        push_cast [← zpow_natCast]
        norm_num
      rw [h2]
      have : ((d : ℚ)) < (((86400 * 2 ^ 37 : ℤ)) : ℚ) := by exact_mod_cast hb
      push_cast at this ⊢
      linarith
    have hf36 : f ≤ 36 := by
      by_contra hcon
      push_neg at hcon
      have h37 : (37 : ℤ) ≤ f := by omega
      have : (2 : ℚ) ^ (37 : ℤ) ≤ 2 ^ f := zpow_le_zpow_right₀ (by norm_num) h37
      linarith
    -- the rounding error is at most 2 ^ (-17) < 1 / 86400
    have herr : (2 : ℚ) ^ (f - 53) ≤ (2 : ℚ) ^ (-17 : ℤ) :=
      zpow_le_zpow_right₀ (by norm_num) (by omega)
    have hsmall : (2 : ℚ) ^ (-17 : ℤ) < 1 / 86400 := by
      rw [zpow_neg]
      rw [show ((2 : ℚ)) ^ (17 : ℤ) = ((131072 : ℚ)) by norm_num]
      norm_num
    -- no overflow: rm < 2 ^ 1024
    have hovf : rm < (2 : ℚ) ^ (1024 : ℤ) := by
      have h1 : rm ≤ q + (2 : ℚ) ^ (-17 : ℤ) := by linarith
      have h2 : (2 : ℚ) ^ (-17 : ℤ) ≤ 1 := by
        apply zpow_le_one_of_nonpos₀ (by norm_num) (by norm_num)
      have h3 : (2 : ℚ) ^ (37 : ℤ) + 1 ≤ (2 : ℚ) ^ (1024 : ℤ) := by
        have h4 : (1 : ℚ) ≤ (2 : ℚ) ^ (37 : ℤ) := one_le_zpow₀ (by norm_num) (by norm_num)
        have h5 : (2 : ℚ) ^ (37 : ℤ) + 2 ^ (37 : ℤ) = 2 ^ (38 : ℤ) := by
          have h38 : (38 : ℤ) = 37 + 1 := by norm_num
          rw [h38, zpow_add₀ (by norm_num : (2 : ℚ) ≠ 0), zpow_one]
          ring
        have h6 : (2 : ℚ) ^ (38 : ℤ) ≤ 2 ^ (1024 : ℤ) :=
          zpow_le_zpow_right₀ (by norm_num) (by norm_num)
        linarith
      linarith
    rw [if_pos hovf]
    -- the truncation is a floor: rm is nonnegative
    have hq_lb : 1 / 86400 ≤ q := by
      rw [hq_def, le_div_iff₀ (by norm_num : (0 : ℚ) < 86400)]
      have : (1 : ℚ) ≤ (d : ℚ) := by exact_mod_cast hd
      linarith
    have hrm_pos : 0 < rm := by
      have : (2 : ℚ) ^ (f - 53) < 1 / 86400 := lt_of_le_of_lt herr hsmall
      linarith
    rw [Option.map_some']
    congr 1
    rw [truncQ_eq_floor _ hrm_pos.le]
    -- finally: ⌊rm⌋ = ⌊q⌋
    set k : ℤ := ⌊q⌋ with hk
    have hkq : (k : ℚ) ≤ q := Int.floor_le q
    have hkq1 : q < (k : ℚ) + 1 := Int.lt_floor_add_one q
    have hdk : d = 86400 * (d / 86400) + d % 86400 := (Int.ediv_add_emod d 86400).symm
    have hr0 : 0 ≤ d % 86400 := Int.emod_nonneg d (by norm_num)
    have hr1 : d % 86400 < 86400 := Int.emod_lt_of_pos d (by norm_num)
    have hkdiv : k = d / 86400 := by
      rw [hk, hq_def]
      rw [show ((86400 : ℚ)) = ((86400 : ℕ) : ℚ) by norm_num]
      exact Rat.floor_intCast_div_natCast d 86400
    have hfrac : q - (k : ℚ) = ((d % 86400 : ℤ) : ℚ) / 86400 := by
      rw [hq_def, hkdiv, div_sub' _ _ _ (by norm_num : (86400 : ℚ) ≠ 0)]
      congr 1
      have : ((d : ℚ)) = 86400 * ((d / 86400 : ℤ) : ℚ) + ((d % 86400 : ℤ) : ℚ) := by
        exact_mod_cast congrArg (fun z : ℤ => (z : ℚ)) hdk
      linarith
    rcases eq_or_lt_of_le hr0 with hrho | hrho
    · -- exact case: 86400 divides d, the quotient is a representable integer
      have hqk : q = (k : ℚ) := by
        have : q - (k : ℚ) = 0 := by
          rw [hfrac, ← hrho]
          norm_num
        linarith
      have hexact : rm = q := by
        apply roundMantissa_exact q (k * 2 ^ (52 - f).toNat)
        rw [← hf, hqk]
        push_cast
        congr 1
        rw [← zpow_natCast, Int.toNat_of_nonneg (by omega : (0 : ℤ) ≤ 52 - f)]
      rw [hexact, hqk, Int.floor_intCast]
    · -- interior case: the quotient is at distance ≥ 1/86400 from k and k+1
      have hfr_lb : 1 / 86400 ≤ q - (k : ℚ) := by
        rw [hfrac, div_le_div_iff_of_pos_right (by norm_num)]
        exact_mod_cast hrho
      have hfr_ub : q - (k : ℚ) ≤ 1 - 1 / 86400 := by
        rw [hfrac]
        have : ((d % 86400 : ℤ) : ℚ) ≤ 86399 := by exact_mod_cast (by omega : d % 86400 ≤ 86399)
        rw [div_le_iff₀ (by norm_num : (0 : ℚ) < 86400)]
        linarith
      have herr' : (2 : ℚ) ^ (f - 53) < 1 / 86400 := lt_of_le_of_lt herr hsmall
      exact Int.floor_eq_iff.mpr ⟨by linarith, by linarith⟩

/-- A negative quotient never truncates to a positive integer: the rounded
double keeps the sign of the exact quotient. -/
theorem pyIntDiv86400_neg_nonpos (d : ℤ) (hd : d < 0) (v : ℤ)
    (hv : pyIntDiv86400 d = some v) : v ≤ 0 := by
  have hdq : ((d : ℚ)) < 0 := by exact_mod_cast hd
  have hq : ((d : ℚ) / 86400) < 0 := div_neg_of_neg_of_pos hdq (by norm_num)
  rw [pyIntDiv86400_eq, pyFloatOfRat_neg _ hq, roundFin_eq] at hv
  split at hv
  · next hcase =>
    simp only [Option.map_some'] at hv
    have hpos : 0 < roundMantissa (-((d : ℚ) / 86400)) :=
      roundMantissa_pos _ (by linarith)
    have hv' : v = truncQ (-roundMantissa (-((d : ℚ) / 86400))) := by
      exact (Option.some.injEq _ _ ▸ hv).symm
    rw [hv']
    exact truncQ_nonpos _ (by linarith)
  · simp at hv

/-- The floor `⌊(d : ℚ) / 86400⌋` is integer floor division. -/
theorem floor_div_86400 (d : ℤ) : ⌊(d : ℚ) / 86400⌋ = d / 86400 := by
  rw [show ((86400 : ℚ)) = ((86400 : ℕ) : ℚ) from by norm_num,
    Rat.floor_intCast_div_natCast]
  norm_num

/-! ### Plumbing for `analyze_interactions` -/

theorem analyze_tx_count (txs : List Tx) :
    (analyze_interactions txs).1 = txs.length := rfl

theorem analyze_contracts (txs : List Tx) :
    (analyze_interactions txs).2.1 = (txs.filterMap contractOf).toFinset.card := rfl

theorem analyze_days_def (txs : List Tx) :
    (analyze_interactions txs).2.2 =
      if txs.length ≠ 0 then (daysTry txs).getD 0 else 0 := rfl

theorem daysTry_eq (txs : List Tx) (t0 t1 : ℤ)
    (h0 : txs.head?.bind Tx.timeStamp = some t0)
    (h1 : txs.getLast?.bind Tx.timeStamp = some t1) :
    daysTry txs = (pyIntDiv86400 (t1 - t0)).map (fun q => max 1 q) := by
  unfold daysTry
  rw [h0, h1]

theorem ne_nil_of_head?_ts (txs : List Tx) (t0 : ℤ)
    (h0 : txs.head?.bind Tx.timeStamp = some t0) : txs ≠ [] := by
  cases txs with
  | nil => simp at h0
  | cons a l => simp

theorem analyze_days_eq (txs : List Tx) (t0 t1 v : ℤ)
    (h0 : txs.head?.bind Tx.timeStamp = some t0)
    (h1 : txs.getLast?.bind Tx.timeStamp = some t1)
    (hv : pyIntDiv86400 (t1 - t0) = some v) :
    (analyze_interactions txs).2.2 = max 1 v := by
  have hne : txs ≠ [] := ne_nil_of_head?_ts txs t0 h0
  rw [analyze_days_def, if_pos (by simpa using hne), daysTry_eq txs t0 t1 h0 h1, hv]
  rfl

/-! ### Claim C1 -/

/-- C1, counterexample: a non-empty transaction sequence whose (malformed)
timestamps fail to parse gets `active_days = 0`, refuting the claim that
`active_days ≥ 1` holds for every non-empty sequence even when the
timestamps of the first or last transaction fail to parse. -/
theorem claim_C1_counterexample :
    ([Tx.mk none none none] ≠ ([] : List Tx)) ∧
      (analyze_interactions [Tx.mk none none none]).2.2 = 0 := by
  decide

/-- C1 (amended): for every non-empty transaction sequence whose first and
last timestamps parse as integers and whose day-quotient computation does
not overflow the double range, `analyze` returns `active_days ≥ 1`;
when a timestamp fails to parse (or the division overflows), the exception
is caught and `active_days` is `0` instead, even for non-empty input. -/
theorem claim_C1_amended (txs : List Tx) (t0 t1 v : ℤ)
    (h0 : txs.head?.bind Tx.timeStamp = some t0)
    (h1 : txs.getLast?.bind Tx.timeStamp = some t1)
    (hv : pyIntDiv86400 (t1 - t0) = some v) :
    1 ≤ (analyze_interactions txs).2.2 := by
  rw [analyze_days_eq txs t0 t1 v h0 h1 hv]
  exact le_max_left 1 v

/-- C1, witness: the amended theorem applied to a concrete one-element
sequence with timestamp `5`. -/
theorem claim_C1_witness :
    1 ≤ (analyze_interactions [Tx.mk none none (some 5)]).2.2 :=
  claim_C1_amended [Tx.mk none none (some 5)] 5 5 0 rfl rfl (by decide)

/-! ### Claim C3 -/

/-- C3 (amended): for every non-empty transaction sequence whose first and
last timestamps parse as integers, are supplied in chronological order, and
differ by less than `86400 * 2^37` seconds (far beyond any realistic
timestamp), `analyze` returns
`active_days = max(1, (last - first) / 86400)` with exact integer floor
division.  Beyond that bound the script's double-precision division can
round the quotient across an integer boundary (see the counterexample). -/
theorem claim_C3_amended (txs : List Tx) (t0 t1 : ℤ)
    (h0 : txs.head?.bind Tx.timeStamp = some t0)
    (h1 : txs.getLast?.bind Tx.timeStamp = some t1)
    (hord : t0 ≤ t1) (hb : t1 - t0 < 86400 * 2 ^ 37) :
    (analyze_interactions txs).2.2 = max 1 ((t1 - t0) / 86400) := by
  have hv := pyIntDiv86400_agrees (t1 - t0) (by omega) hb
  rw [floor_div_86400] at hv
  exact analyze_days_eq txs t0 t1 _ h0 h1 hv

/-- C3, witness: the amended theorem applied to a concrete two-element
sequence spanning `100000` seconds, giving `active_days = 1`. -/
theorem claim_C3_witness :
    (analyze_interactions
        [Tx.mk none none (some 0), Tx.mk none none (some 100000)]).2.2 =
      max 1 ((100000 - 0) / 86400 : ℤ) :=
  claim_C3_amended [Tx.mk none none (some 0), Tx.mk none none (some 100000)]
    0 100000 rfl rfl (by decide) (by decide)

/-- The C3 counterexample input: first timestamp `0`, last timestamp
`86400 * 2^53 - 1`, both parsing as integers and in chronological order. -/
def c3txs : List Tx :=
  [Tx.mk none none (some 0), Tx.mk none none (some ((86400 * 2 ^ 53 - 1 : ℕ) : ℤ))]

/-- C3, counterexample: at a timestamp difference of `86400 * 2^53 - 1`
seconds the exact quotient is `2^53 - 1/86400`; the double division rounds
it up to `2^53`, so the script returns `active_days = 2^53` while exact
integer arithmetic `max(1, floor((last - first) / 86400))` gives
`2^53 - 1`. -/
theorem claim_C3_counterexample :
    (c3txs.head?.bind Tx.timeStamp = some 0 ∧
      c3txs.getLast?.bind Tx.timeStamp = some ((86400 * 2 ^ 53 - 1 : ℕ) : ℤ) ∧
      (0 : ℤ) ≤ ((86400 * 2 ^ 53 - 1 : ℕ) : ℤ) - 0) ∧
    (analyze_interactions c3txs).2.2 ≠
      max 1 ((((86400 * 2 ^ 53 - 1 : ℕ) : ℤ) - 0) / 86400) := by
  decide

/-! ### Claim C10 -/

/-- C10 (amended): for every non-empty transaction sequence whose first and
last timestamps parse as integers, are out of chronological order
(`last < first`) and whose quotient does not overflow the double range,
the negative day count is clamped by the `max` with `1`, so
`active_days = 1`; if the quotient overflows (a difference below
`-86400 * 2^1024` or so), the resulting `OverflowError` is caught and
`active_days` degrades to `0` instead. -/
theorem claim_C10_amended (txs : List Tx) (t0 t1 v : ℤ)
    (h0 : txs.head?.bind Tx.timeStamp = some t0)
    (h1 : txs.getLast?.bind Tx.timeStamp = some t1)
    (hlt : t1 < t0) (hv : pyIntDiv86400 (t1 - t0) = some v) :
    (analyze_interactions txs).2.2 = 1 := by
  rw [analyze_days_eq txs t0 t1 v h0 h1 hv]
  have hvle : v ≤ 0 := pyIntDiv86400_neg_nonpos (t1 - t0) (by omega) v hv
  omega

/-- C10, witness: out-of-order timestamps `86400` then `0` give
`active_days = 1`. -/
theorem claim_C10_witness :
    (analyze_interactions
        [Tx.mk none none (some 86400), Tx.mk none none (some 0)]).2.2 = 1 :=
  claim_C10_amended [Tx.mk none none (some 86400), Tx.mk none none (some 0)]
    86400 0 (-1) rfl rfl (by decide) (by decide)

/-- The C10 counterexample input: first timestamp `86400 * 2^1100`, last
timestamp `0`, both parsing as integers. -/
def c10txs : List Tx :=
  [Tx.mk none none (some ((86400 * 2 ^ 1100 : ℕ) : ℤ)), Tx.mk none none (some 0)]

/-- C10, counterexample: with both timestamps parsed, a difference of
`-86400 * 2^1100` seconds overflows the double division (`OverflowError`),
the handler sets `active_days = 0`, and the claimed bound
`active_days ≥ 1` fails for this non-empty sequence. -/
theorem claim_C10_counterexample :
    (c10txs ≠ [] ∧
      c10txs.head?.bind Tx.timeStamp = some ((86400 * 2 ^ 1100 : ℕ) : ℤ) ∧
      c10txs.getLast?.bind Tx.timeStamp = some 0) ∧
    ¬ 1 ≤ (analyze_interactions c10txs).2.2 := by
  decide

/-! ### Claim C8 -/

/-- C8: for the empty transaction sequence, `analyze` returns
`(tx_count, unique_contracts, active_days) = (0, 0, 0)`. -/
theorem claim_C8 : analyze_interactions [] = (0, 0, 0) := by decide

/-! ### Claim C9 -/

/-- C9: for every transaction sequence, the `unique_contracts` metric is at
most the `tx_count` metric (the length of the sequence). -/
theorem claim_C9 (txs : List Tx) :
    (analyze_interactions txs).2.1 ≤ (analyze_interactions txs).1 := by
  rw [analyze_contracts, analyze_tx_count]
  calc (txs.filterMap contractOf).toFinset.card
      ≤ (txs.filterMap contractOf).length := List.toFinset_card_le _
  _ ≤ txs.length := List.length_filterMap_le _ _

/-! ### Claim C2 -/

/-- The unique-contract count in the words of claim C2 (and of the spec):
the size of the set formed by the lower-cased destination addresses of
exactly those transactions whose input payload is longer than 2 characters,
with no further condition on the destination. -/
def uniqueContractsClaim (txs : List Tx) : ℕ :=
  ((txs.filter (fun t => decide (2 < (t.input.getD "").length))).map
    (fun t => lowerStr (t.«to».getD ""))).toFinset.card

/-- The unique-contract count as the code computes it, stated in the
claim's style: the lower-cased destination must additionally start with
`"0x"`. -/
def uniqueContractsAmended (txs : List Tx) : ℕ :=
  ((txs.filter (fun t =>
      starts0x (lowerStr (t.«to».getD "")) && decide (2 < (t.input.getD "").length))).map
    (fun t => lowerStr (t.«to».getD ""))).toFinset.card

/-- C2, counterexample: a transaction to destination `"abc"` with payload
`"0xdead"` is counted by the claim's set (payload longer than 2 characters)
but not by the code, which also requires the destination to start with
`"0x"`. -/
theorem claim_C2_counterexample :
    (analyze_interactions [Tx.mk (some "abc") (some "0xdead") (some 0)]).2.1 ≠
      uniqueContractsClaim [Tx.mk (some "abc") (some "0xdead") (some 0)] := by
  decide

/-- C2 (amended): for every transaction sequence, `unique_contracts` equals
the size of the set of lower-cased destination addresses of exactly those
transactions whose lower-cased destination starts with `"0x"` and whose
input payload is longer than 2 characters. -/
theorem claim_C2_amended (txs : List Tx) :
    (analyze_interactions txs).2.1 = uniqueContractsAmended txs := by
  rw [analyze_contracts]
  unfold uniqueContractsAmended
  congr 2
  induction txs with
  | nil => rfl
  | cons a l ih =>
    rw [List.filterMap_cons, List.filter_cons]
    by_cases h : starts0x (lowerStr (a.«to».getD "")) = true ∧ 2 < (a.input.getD "").length
    · have hc : contractOf a = some (lowerStr (a.«to».getD "")) := by
        unfold contractOf
        rw [if_pos h]
      have hb : (starts0x (lowerStr (a.«to».getD "")) &&
          decide (2 < (a.input.getD "").length)) = true := by
        rw [Bool.and_eq_true]
        exact ⟨h.1, decide_eq_true h.2⟩
      rw [hc, hb, if_pos rfl, List.map_cons, ih]
    · have hc : contractOf a = none := by
        unfold contractOf
        rw [if_neg h]
      have hb : (starts0x (lowerStr (a.«to».getD "")) &&
          decide (2 < (a.input.getD "").length)) = false := by
        rw [Bool.and_eq_false_iff]
        by_cases h1 : starts0x (lowerStr (a.«to».getD "")) = true
        · right
          have h2 : ¬ 2 < (a.input.getD "").length := fun hh => h ⟨h1, hh⟩
          simpa using h2
        · left
          simpa using h1
      rw [hc, hb]
      simpa using ih

/-! ### Claim C7 -/

/-- C7: for every transaction sequence (string-or-absent destination and
input fields, arbitrary possibly-unparseable timestamps), `analyze` is
total: `tx_count` and `unique_contracts` are always computed, and when the
timestamp block raises (`daysTry txs = none`), the exception is caught and
`active_days` degrades to `0`; when it succeeds, its value is returned. -/
theorem claim_C7 (txs : List Tx) :
    (analyze_interactions txs).1 = txs.length ∧
    (analyze_interactions txs).2.1 = (txs.filterMap contractOf).toFinset.card ∧
    (daysTry txs = none → (analyze_interactions txs).2.2 = 0) ∧
    (∀ d, daysTry txs = some d → (analyze_interactions txs).2.2 = d) := by
  refine ⟨rfl, rfl, ?_, ?_⟩
  · intro h
    rw [analyze_days_def]
    split
    · rw [h]
      rfl
    · rfl
  · intro d hd
    have hne : txs ≠ [] := by
      intro hnil
      rw [hnil] at hd
      simp [daysTry] at hd
    rw [analyze_days_def, if_pos (by simpa using hne), hd]
    rfl

/-- C7, witness: on a sequence whose only transaction has no parseable
timestamp, the timestamp block raises and `active_days` degrades to `0`. -/
theorem claim_C7_witness :
    (analyze_interactions [Tx.mk none none none]).2.2 = 0 :=
  (claim_C7 [Tx.mk none none none]).2.2.1 rfl

/-! ### `score_address` (claim C4)

The Python `score_address` fetches the balance and the transaction list and
then computes a pure result record.  The two fetches are I/O; the model
receives their outcomes (`bal`, `txs`) as arguments.  Python floats are
modelled by their exact rational values, and the threshold integers
(`argparse type=int`) by `ℤ`. -/

structure ScoreResult where
  address : String
  balance : ℚ
  tx_count : ℕ
  contracts : ℕ
  active_days : ℤ
  eligible : Bool
deriving DecidableEq

/-- The pure part of `score_address(chain, addr, ...)` after the fetches:
`eligible = (bal >= min_balance) and (tx_count >= min_tx) and
(uniq >= min_contracts) and (days >= min_days)`, and the result record
carries the address, balance, the three metrics and the verdict. -/
def score_address (addr : String) (bal : ℚ) (txs : List Tx)
    (min_balance : ℚ) (min_tx min_contracts min_days : ℤ) : ScoreResult :=
  let m := analyze_interactions txs
  let eligible : Bool :=
    decide (min_balance ≤ bal) && decide (min_tx ≤ (m.1 : ℤ)) &&
      decide (min_contracts ≤ (m.2.1 : ℤ)) && decide (min_days ≤ m.2.2)
  ⟨addr, bal, m.1, m.2.1, m.2.2, eligible⟩

/-- C4: the verdict of `score_address` is true exactly when all four
threshold comparisons hold for the metrics returned by `analyze`, and the
result record carries the address, the balance, all three metrics and the
verdict. -/
theorem claim_C4 (addr : String) (bal : ℚ) (txs : List Tx)
    (mb : ℚ) (mt mc md : ℤ) :
    ((score_address addr bal txs mb mt mc md).eligible = true ↔
      (mb ≤ bal ∧ mt ≤ ((analyze_interactions txs).1 : ℤ) ∧
        mc ≤ ((analyze_interactions txs).2.1 : ℤ) ∧
        md ≤ (analyze_interactions txs).2.2)) ∧
    (score_address addr bal txs mb mt mc md).address = addr ∧
    (score_address addr bal txs mb mt mc md).balance = bal ∧
    (score_address addr bal txs mb mt mc md).tx_count =
      (analyze_interactions txs).1 ∧
    (score_address addr bal txs mb mt mc md).contracts =
      (analyze_interactions txs).2.1 ∧
    (score_address addr bal txs mb mt mc md).active_days =
      (analyze_interactions txs).2.2 := by
  refine ⟨?_, rfl, rfl, rfl, rfl, rfl⟩
  simp [score_address, Bool.and_eq_true, decide_eq_true_iff, and_assoc]

/-! ### The per-address batch loop of `main` (claim C5)

The loop body fetches and scores one address inside `try:`; any exception
is caught and recorded as `{"address": a, "error": str(e),
"eligible": False}`.  The fetch outcome for each address (the success
values, or the exception message) is supplied by the `fetch` oracle; the
`time.sleep` pacing call has no semantic content and is omitted. -/

inductive FetchOutcome where
  | ok (bal : ℚ) (txs : List Tx)
  | exc (msg : String)

inductive ResultRec where
  | ok (r : ScoreResult)
  | err (address : String) (error : String) (eligible : Bool)
deriving DecidableEq

/-- The `address` field every result record carries. -/
def resultAddress : ResultRec → String
  | .ok r => r.address
  | .err a _ _ => a

/-- The `for a in addrs:` loop of `main`, accumulating `res` by appending
one record per address: a score record on success, an error record with
`eligible = False` on exception. -/
def processBatch (fetch : String → FetchOutcome) (mb : ℚ) (mt mc md : ℤ)
    (addrs : List String) : List ResultRec :=
  addrs.foldl (fun res a =>
    res ++ [match fetch a with
            | .ok bal txs => ResultRec.ok (score_address a bal txs mb mt mc md)
            | .exc e => ResultRec.err a e false]) []

theorem foldl_append_eq_map {α β : Type} (g : α → β) :
    ∀ (l : List α) (acc : List β),
      l.foldl (fun res a => res ++ [g a]) acc = acc ++ l.map g := by
  intro l
  induction l with
  | nil => intro acc; simp
  | cons a t ih =>
    intro acc
    rw [List.foldl_cons, ih, List.map_cons, List.append_assoc]
    rfl

/-- C5: the batch produces exactly one result record per loaded address, in
input order; an address whose fetch raises contributes an error record with
the verdict forced to `false`, and the loop continues with the remaining
addresses. -/
theorem claim_C5 (fetch : String → FetchOutcome) (mb : ℚ) (mt mc md : ℤ)
    (addrs : List String) :
    processBatch fetch mb mt mc md addrs =
      addrs.map (fun a => match fetch a with
        | .ok bal txs => ResultRec.ok (score_address a bal txs mb mt mc md)
        | .exc e => ResultRec.err a e false) ∧
    (processBatch fetch mb mt mc md addrs).length = addrs.length ∧
    (processBatch fetch mb mt mc md addrs).map resultAddress = addrs := by
  have hmap := foldl_append_eq_map
    (g := fun a => match fetch a with
      | .ok bal txs => ResultRec.ok (score_address a bal txs mb mt mc md)
      | .exc e => ResultRec.err a e false) addrs []
  have hpb : processBatch fetch mb mt mc md addrs =
      addrs.map (fun a => match fetch a with
        | .ok bal txs => ResultRec.ok (score_address a bal txs mb mt mc md)
        | .exc e => ResultRec.err a e false) := by
    unfold processBatch
    rw [hmap]
    rfl
  refine ⟨hpb, ?_, ?_⟩
  · rw [hpb, List.length_map]
  · rw [hpb, List.map_map]
    have haddr : ∀ a : String,
        (resultAddress ∘ fun a => match fetch a with
          | .ok bal txs => ResultRec.ok (score_address a bal txs mb mt mc md)
          | .exc e => ResultRec.err a e false) a = a := by
      intro a
      cases hfa : fetch a <;> simp [resultAddress, hfa, score_address]
    calc addrs.map _ = addrs.map id := List.map_congr_left (fun a _ => haddr a)
    _ = addrs := List.map_id addrs

/-! ### The address loader (claim C6)

`load_addresses` first expands file arguments into their non-empty lines
(I/O, modelled by handing the already-flattened candidate list to the
function) and then, for each candidate: strips surrounding whitespace,
matches it against `^0x[a-fA-F0-9]{40}$`, normalizes matches to
`"0x" + a[2:].lower()`, raises `SystemExit` when nothing validates, and
finally deduplicates with `dict.fromkeys` (first occurrence wins, order
preserved). -/

/-- The class `[a-fA-F0-9]` (by code point: `0`-`9` is 48-57, `a`-`f` 97-102,
`A`-`F` 65-70). -/
def isHexDigit (c : Char) : Bool :=
  decide ((48 ≤ c.toNat ∧ c.toNat ≤ 57) ∨ (97 ≤ c.toNat ∧ c.toNat ≤ 102) ∨
    (65 ≤ c.toNat ∧ c.toNat ≤ 70))

/-- The class `[a-f0-9]`. -/
def isLowerHexDigit (c : Char) : Bool :=
  decide ((48 ≤ c.toNat ∧ c.toNat ≤ 57) ∨ (97 ≤ c.toNat ∧ c.toNat ≤ 102))

/-- The regular expression `^0x[a-fA-F0-9]{40}$` of line 27. -/
def ADDR_RE (s : String) : Bool :=
  match s.data with
  | c1 :: c2 :: rest =>
    c1 == '0' && c2 == 'x' && decide (rest.length = 40) && rest.all isHexDigit
  | _ => false

/-- Python's `str.strip()` (ASCII whitespace). -/
def pyStrip (s : String) : String :=
  ⟨((s.data.dropWhile Char.isWhitespace).reverse.dropWhile Char.isWhitespace).reverse⟩

/-- Python's `"0x" + a[2:].lower()`. -/
def normalizeAddr (s : String) : String :=
  ⟨'0' :: 'x' :: (s.data.drop 2).map lowerChar⟩

/-- The validation/normalization loop of `load_addresses` (lines 117-121):
keep `"0x" + a[2:].lower()` for every stripped candidate matching
`ADDR_RE`. -/
def validNorm (cands : List String) : List String :=
  cands.filterMap (fun x =>
    let a := pyStrip x
    if ADDR_RE a = true then some (normalizeAddr a) else none)

/-- One step of `dict.fromkeys` insertion: keep the accumulator if the key
is already present, otherwise append it. -/
def dfStep (acc : List String) (a : String) : List String :=
  if a ∈ acc then acc else acc ++ [a]

/-- Python's `list(dict.fromkeys(out))`: deduplicate, keeping the first occurrence
of each element and preserving order. -/
def dedupFirst (l : List String) : List String := l.foldl dfStep []

/-- The function `load_addresses` after file expansion: validate, normalize, raise
`SystemExit` (modelled as `Except.error`) when no candidate validates,
otherwise return the deduplicated list. -/
def load_addresses (cands : List String) : Except String (List String) :=
  let out := validNorm cands
  if out = [] then Except.error "no valid EVM addresses provided"
  else Except.ok (dedupFirst out)

/-- The lower-case output pattern `^0x[a-f0-9]{40}$`. -/
def isLowerAddr (s : String) : Bool :=
  match s.data with
  | c1 :: c2 :: rest =>
    c1 == '0' && c2 == 'x' && decide (rest.length = 40) && rest.all isLowerHexDigit
  | _ => false

/-! #### Properties of the first-occurrence deduplication -/

theorem dfFold_spec : ∀ (l acc : List String), acc.Nodup →
    ∃ d : List String, l.foldl dfStep acc = acc ++ d ∧ d.Sublist l ∧
      (∀ x, x ∈ d → x ∉ acc) ∧ (acc ++ d).Nodup ∧
      (∀ x, x ∈ l.foldl dfStep acc ↔ x ∈ acc ∨ x ∈ l) := by
  intro l
  induction l with
  | nil =>
    intro acc hacc
    exact ⟨[], by simp, by simp, by simp, by simpa using hacc, by simp⟩
  | cons a t ih =>
    intro acc hacc
    rw [List.foldl_cons]
    by_cases hmem : a ∈ acc
    · have hstep : dfStep acc a = acc := if_pos hmem
      rw [hstep]
      obtain ⟨d, hEq, hSub, hNotin, hNodup, hMem⟩ := ih acc hacc
      refine ⟨d, hEq, hSub.cons a, hNotin, hNodup, ?_⟩
      intro x
      rw [hMem x]
      constructor
      · rintro (hx | hx)
        · exact Or.inl hx
        · exact Or.inr (List.mem_cons_of_mem a hx)
      · rintro (hx | hx)
        · exact Or.inl hx
        · rcases List.mem_cons.mp hx with rfl | hx
          · exact Or.inl hmem
          · exact Or.inr hx
    · have hstep : dfStep acc a = acc ++ [a] := if_neg hmem
      rw [hstep]
      have hacc' : (acc ++ [a]).Nodup := by
        rw [List.nodup_append]
        exact ⟨hacc, List.nodup_singleton a, by simpa using hmem⟩
      obtain ⟨d, hEq, hSub, hNotin, hNodup, hMem⟩ := ih (acc ++ [a]) hacc'
      refine ⟨a :: d, ?_, hSub.cons₂ a, ?_, ?_, ?_⟩
      · rw [hEq, List.append_assoc]
        rfl
      · intro x hx
        rcases List.mem_cons.mp hx with rfl | hx
        · exact hmem
        · have := hNotin x hx
          intro hxa
          exact this (List.mem_append_left _ hxa)
      · have : acc ++ a :: d = (acc ++ [a]) ++ d := by
          rw [List.append_assoc]
          rfl
        rw [this]
        exact hNodup
      · intro x
        rw [hMem x]
        simp only [List.mem_append, List.mem_singleton, List.mem_cons]
        tauto

theorem dedupFirst_spec (l : List String) :
    (dedupFirst l).Sublist l ∧ (dedupFirst l).Nodup ∧
      (∀ x, x ∈ dedupFirst l ↔ x ∈ l) := by
  obtain ⟨d, hEq, hSub, _, hNodup, hMem⟩ := dfFold_spec l [] List.nodup_nil
  have hd : dedupFirst l = d := by
    rw [dedupFirst, hEq]
    rfl
  refine ⟨?_, ?_, ?_⟩
  · rw [hd]; exact hSub
  · rw [hd]; simpa using hNodup
  · intro x
    rw [dedupFirst, hMem x]
    simp

theorem mem_dedupFirst (l : List String) (x : String) :
    x ∈ dedupFirst l ↔ x ∈ l := (dedupFirst_spec l).2.2 x

theorem dedupFirst_append_singleton (p : List String) (a : String) :
    dedupFirst (p ++ [a]) =
      if a ∈ dedupFirst p then dedupFirst p else dedupFirst p ++ [a] := by
  rw [dedupFirst, List.foldl_append]
  rfl

/-- First-occurrence order: the deduplicated list is sorted by the index of
the first occurrence in the original list. -/
theorem dedupFirst_pairwise_aux (l : List String) :
    ∀ (t p : List String), l = p ++ t →
      (dedupFirst p).Pairwise (fun x y => l.indexOf x < l.indexOf y) →
      (dedupFirst l).Pairwise (fun x y => l.indexOf x < l.indexOf y) := by
  intro t
  induction t with
  | nil =>
    intro p hl hp
    rw [List.append_nil] at hl
    subst hl
    exact hp
  | cons a t ih =>
    intro p hl hp
    apply ih (p ++ [a]) (by rw [hl, List.append_assoc]; rfl)
    rw [dedupFirst_append_singleton]
    by_cases hmem : a ∈ dedupFirst p
    · rw [if_pos hmem]
      exact hp
    · rw [if_neg hmem]
      rw [List.pairwise_append]
      refine ⟨hp, List.pairwise_singleton _ _, ?_⟩
      intro x hx y hy
      have hya : y = a := List.mem_singleton.mp hy
      rw [hya]
      have hxp : x ∈ p := (mem_dedupFirst p x).mp hx
      have hap : a ∉ p := fun h => hmem ((mem_dedupFirst p a).mpr h)
      have hxIdx : l.indexOf x = p.indexOf x := by
        rw [hl]
        exact List.indexOf_append_of_mem hxp
      have haIdx : l.indexOf a = p.length := by
        rw [hl, List.indexOf_append_of_not_mem hap, List.indexOf_cons_self]
        omega
      rw [hxIdx, haIdx]
      exact List.indexOf_lt_length.mpr hxp

theorem dedupFirst_pairwise (l : List String) :
    (dedupFirst l).Pairwise (fun x y => l.indexOf x < l.indexOf y) := by
  have := dedupFirst_pairwise_aux l l [] rfl (by simp [dedupFirst, List.foldl_nil])
  simpa using this

/-! #### The normalized outputs match the lower-case address pattern -/

theorem toNat_ofNat_small (n : ℕ) (h : n < 55296) : (Char.ofNat n).toNat = n := by
  rw [Char.ofNat, dif_pos (Or.inl h)]
  rfl

theorem lowerChar_hex (c : Char) (h : isHexDigit c = true) :
    isLowerHexDigit (lowerChar c) = true := by
  rw [isHexDigit, decide_eq_true_iff] at h
  unfold lowerChar isLowerHexDigit
  by_cases hc : 65 ≤ c.toNat ∧ c.toNat ≤ 90
  · rw [if_pos hc]
    have ht : (Char.ofNat (c.toNat + 32)).toNat = c.toNat + 32 :=
      toNat_ofNat_small _ (by omega)
    rw [decide_eq_true_iff, ht]
    omega
  · rw [if_neg hc, decide_eq_true_iff]
    omega

theorem ADDR_RE_inv (s : String) (h : ADDR_RE s = true) :
    ∃ rest, s.data = '0' :: 'x' :: rest ∧ rest.length = 40 ∧
      rest.all isHexDigit = true := by
  obtain ⟨data⟩ := s
  match data with
  | [] => simp [ADDR_RE] at h
  | [c1] => simp [ADDR_RE] at h
  | c1 :: c2 :: rest =>
    have hh : (c1 == '0' && c2 == 'x' && decide (rest.length = 40) &&
        rest.all isHexDigit) = true := h
    simp only [Bool.and_eq_true, beq_iff_eq] at hh
    obtain ⟨⟨⟨h1, h2⟩, h3⟩, h4⟩ := hh
    subst h1
    subst h2
    exact ⟨rest, rfl, by simpa using h3, h4⟩

theorem validNorm_mem_pattern (cands : List String) (y : String)
    (hy : y ∈ validNorm cands) : isLowerAddr y = true := by
  rw [validNorm, List.mem_filterMap] at hy
  obtain ⟨x, _, hfx⟩ := hy
  simp only at hfx
  by_cases hre : ADDR_RE (pyStrip x) = true
  · rw [if_pos hre] at hfx
    obtain ⟨rest, hdata, hlen, hall⟩ := ADDR_RE_inv (pyStrip x) hre
    have hynorm : y = normalizeAddr (pyStrip x) := (Option.some.injEq _ _ ▸ hfx).symm
    have hydata : y.data = '0' :: 'x' :: rest.map lowerChar := by
      rw [hynorm, normalizeAddr, hdata]
      rfl
    have hgoal : isLowerAddr y =
        (('0' == '0') && ('x' == 'x') && decide ((rest.map lowerChar).length = 40) &&
          (rest.map lowerChar).all isLowerHexDigit) := by
      rw [isLowerAddr, hydata]
    rw [hgoal]
    simp only [beq_self_eq_true, Bool.true_and, Bool.and_eq_true, decide_eq_true_iff,
      List.length_map, List.all_map, List.all_eq_true]
    refine ⟨hlen, ?_⟩
    intro c hc
    exact lowerChar_hex c (by
      rw [List.all_eq_true] at hall
      exact hall c hc)
  · rw [if_neg hre] at hfx
    exact absurd hfx (by simp)

/-! #### Claim C6 -/

theorem validNorm_eq_nil_iff (cands : List String) :
    validNorm cands = [] ↔ ∀ x ∈ cands, ADDR_RE (pyStrip x) = false := by
  rw [validNorm, List.filterMap_eq_nil_iff]
  constructor
  · intro h x hx
    have hfx := h x hx
    simp only at hfx
    by_cases hre : ADDR_RE (pyStrip x) = true
    · rw [if_pos hre] at hfx
      exact absurd hfx (by simp)
    · simpa using hre
  · intro h x hx
    simp only
    rw [if_neg (by rw [h x hx]; simp)]

/-- C6: the address loader fails fatally (raises `SystemExit`) exactly when
no stripped candidate matches `^0x[a-fA-F0-9]{40}$`; otherwise the returned
list is the validated lower-case-normalized candidates with duplicates
removed: it has no duplicates, is a subsequence of the validated list,
contains exactly its elements, is ordered by first occurrence, and every
element matches the lower-case pattern `^0x[a-f0-9]{40}$`. -/
theorem claim_C6 (cands : List String) :
    ((∃ e, load_addresses cands = Except.error e) ↔
      ∀ x ∈ cands, ADDR_RE (pyStrip x) = false) ∧
    (∀ out, load_addresses cands = Except.ok out →
      out.Nodup ∧ out.Sublist (validNorm cands) ∧
      (∀ y, y ∈ out ↔ y ∈ validNorm cands) ∧
      out.Pairwise (fun x y =>
        (validNorm cands).indexOf x < (validNorm cands).indexOf y) ∧
      (∀ y ∈ out, isLowerAddr y = true)) := by
  constructor
  · rw [← validNorm_eq_nil_iff]
    unfold load_addresses
    constructor
    · rintro ⟨e, he⟩
      by_cases hnil : validNorm cands = []
      · exact hnil
      · rw [if_neg hnil] at he
        exact absurd he (by simp)
    · intro hnil
      rw [if_pos hnil]
      exact ⟨_, rfl⟩
  · intro out hout
    unfold load_addresses at hout
    by_cases hnil : validNorm cands = []
    · rw [if_pos hnil] at hout
      exact absurd hout (by simp)
    · rw [if_neg hnil] at hout
      have hout' : out = dedupFirst (validNorm cands) :=
        (Except.ok.injEq _ _ ▸ hout).symm
      subst hout'
      obtain ⟨hSub, hNodup, hMem⟩ := dedupFirst_spec (validNorm cands)
      refine ⟨hNodup, hSub, hMem, dedupFirst_pairwise _, ?_⟩
      intro y hy
      exact validNorm_mem_pattern cands y ((hMem y).mp hy)

/-- C6, witness: the claim theorem applied to a concrete candidate list
with a whitespace-padded mixed-case address, an invalid string, and a
duplicate of the first address; the loader returns the single normalized
address, which is duplicate-free and matches the lower-case pattern. -/
theorem claim_C6_witness :
    (["0xabcdefabcdef0123456789abcdefabcdef012345"] : List String).Nodup ∧
      isLowerAddr "0xabcdefabcdef0123456789abcdefabcdef012345" = true := by
  have h := (claim_C6 [" 0xABCDEFabcdef0123456789ABCDEFabcdef012345 ", "nope",
      "0xabcdefabcdef0123456789abcdefabcdef012345"]).2
    ["0xabcdefabcdef0123456789abcdefabcdef012345"] rfl
  exact ⟨h.1, h.2.2.2.2 _ (by decide)⟩

end Scout
